import Mathlib

/-!
Verification development for the microc compiler (Rust sources:
src/char_utils.rs, src/lexer.rs, src/ast.rs, src/codegen.rs).

The Rust code is shallowly embedded: each Rust function becomes a Lean
definition of the same name (snake_case kept where Lean allows).  Strings
are embedded as `List Char`; the Rust `u32`/`usize` counters become `Nat`
(no claim depends on wrap-around, and in a debug build the Rust code would
panic on overflow before any wrap), `i32` literal values become `Int` with
the lexer enforcing the `i32` range exactly where the Rust `parse::<i32>`
would fail.  Rust panics are embedded as `Except` errors; the loops of
`tokenize` and of the recursive-descent parser are embedded with an explicit
fuel parameter (structural recursion), and fuel sufficiency is proved where
a claim concerns termination.
-/

/-! ## char_utils.rs -/

/-- The 256-entry lookup table `white_space::WHITESPACE_MAP`, transcribed
verbatim from src/char_utils.rs. -/
def WHITESPACE_MAP : List Nat := [
  2, 2, 2, 2, 2, 2, 2, 2, 2, 3, 3, 1, 1, 1, 0, 0, 0, 0, 0, 0, 0, 0, 0, 0, 0, 0, 0, 0, 0, 0,
  0, 0, 1, 0, 0, 0, 0, 0, 0, 0, 2, 2, 0, 0, 0, 0, 0, 2, 0, 0, 0, 0, 0, 0, 0, 0, 0, 0, 0, 0,
  0, 0, 0, 0, 0, 0, 0, 0, 0, 0, 0, 0, 0, 0, 0, 0, 0, 0, 0, 0, 0, 0, 0, 0, 0, 0, 0, 0, 0, 0,
  0, 0, 0, 0, 0, 2, 0, 0, 0, 0, 0, 0, 0, 0, 0, 0, 0, 0, 0, 0, 0, 0, 0, 0, 0, 0, 0, 0, 0, 0,
  0, 0, 0, 0, 0, 0, 0, 0, 0, 0, 0, 0, 0, 1, 0, 0, 0, 0, 0, 0, 0, 0, 0, 0, 0, 0, 0, 0, 0, 0,
  0, 0, 0, 0, 0, 0, 0, 0, 0, 0, 1, 0, 0, 0, 0, 0, 0, 0, 0, 0, 0, 0, 0, 0, 0, 0, 0, 0, 0, 0,
  0, 0, 0, 0, 0, 0, 0, 0, 0, 0, 0, 0, 0, 0, 0, 0, 0, 0, 0, 0, 0, 0, 0, 0, 0, 0, 0, 0, 0, 0,
  0, 0, 0, 0, 0, 0, 0, 0, 0, 0, 0, 0, 0, 0, 0, 0, 0, 0, 0, 0, 0, 0, 0, 0, 0, 0, 0, 0, 0, 0,
  0, 0, 0, 0, 0, 0, 0, 0, 0, 0, 0, 0, 0, 0, 0, 0]

/-- Embedding of `white_space::lookup` from src/char_utils.rs. -/
def white_space_lookup (c : Char) : Bool :=
  match c.toNat >>> 8 with
  | 0 => (WHITESPACE_MAP.getD (c.toNat &&& 0xff) 0) &&& 1 != 0
  | 22 => c.toNat == 0x1680
  | 32 => (WHITESPACE_MAP.getD (c.toNat &&& 0xff) 0) &&& 2 != 0
  | 48 => c.toNat == 0x3000
  | _ => false

/-- Embedding of `char_utils::is_whitespace`.  The Rust source's comment
claims this is the Pattern_White_Space classification. -/
def is_whitespace (c : Char) : Bool :=
  if c = ' ' then true
  else if '\x09' ≤ c ∧ c ≤ '\x0d' then true
  else if '\x7f' < c then white_space_lookup c
  else false

/-- Embedding of `char_utils::is_identifier_continue`. -/
def is_identifier_continue (c : Char) : Bool :=
  ('0' ≤ c ∧ c ≤ '9') ∨ ('A' ≤ c ∧ c ≤ 'Z') ∨ ('a' ≤ c ∧ c ≤ 'z')

/-- Embedding of `char_utils::is_digit`. -/
def is_digit (c : Char) : Bool :=
  '0' ≤ c ∧ c ≤ '9'

/-- Embedding of `char_utils::is_expected`. -/
def is_expected (c : Char) : Bool :=
  is_identifier_continue c || is_whitespace c ||
    (c = '=' ∨ c = '+' ∨ c = '-' ∨ c = '(' ∨ c = ')' ∨ c = ';' ∨ c = ',')

/-- Model of the Rust standard library predicate `char::is_whitespace`
(the Unicode White_Space property), used as a guard in
`Lexer::next_token`.  The White_Space code points are hard-coded here from
the Unicode character database. -/
def rust_std_char_is_whitespace (c : Char) : Bool :=
  let n := c.toNat
  (0x9 ≤ n ∧ n ≤ 0xD) ∨ n = 0x20 ∨ n = 0x85 ∨ n = 0xA0 ∨ n = 0x1680 ∨
    (0x2000 ≤ n ∧ n ≤ 0x200A) ∨ n = 0x2028 ∨ n = 0x2029 ∨ n = 0x202F ∨
    n = 0x205F ∨ n = 0x3000

/-- Model of the Rust standard library predicate `char::is_ascii_alphabetic`. -/
def rust_std_is_ascii_alphabetic (c : Char) : Bool :=
  ('A' ≤ c ∧ c ≤ 'Z') ∨ ('a' ≤ c ∧ c ≤ 'z')

/-- The Unicode Pattern_White_Space set exactly as the specification lists
it: U+0009 to U+000D, U+0020, U+0085, U+200E, U+200F, U+2028, U+2029.
This definition follows the spec's words, for comparison with the
source-derived `is_whitespace`. -/
def pattern_white_space_spec (c : Char) : Bool :=
  let n := c.toNat
  (0x9 ≤ n ∧ n ≤ 0xD) ∨ n = 0x20 ∨ n = 0x85 ∨ n = 0x200E ∨ n = 0x200F ∨
    n = 0x2028 ∨ n = 0x2029

/-! ## lexer.rs : token data model -/

/-- Embedding of `TokenType` from src/lexer.rs. -/
inductive TokenType where
  | Whitespace
  | Begin
  | End
  | Read
  | Write
  | Identifier (name : String)
  | IntLiteral (value : Int)
  | LeftParen
  | RightParen
  | Semicolon
  | Comma
  | OpAssign
  | OpPlus
  | OpMinus
  | LineComment
  | Unknown
  | ScanEof
  deriving DecidableEq

/-- Embedding of `Token` from src/lexer.rs.  `length` and `offset` count
characters rather than bytes (the two agree on ASCII sources; both fields
are diagnostic only and no claim depends on them). -/
structure Token where
  token_type : TokenType
  length : Nat
  line : Nat
  column : Nat
  offset : Nat
  deriving DecidableEq

/-- Embedding of `Token::unknown`. -/
def Token.unknown : Token :=
  { token_type := .Unknown, length := 0, line := 0, column := 0, offset := 0 }

/-- Embedding of `Token::eof`. -/
def Token.eof : Token :=
  { token_type := .ScanEof, length := 0, line := 0, column := 0, offset := 0 }

/-! ## lexer.rs : the lexer -/

/-- Embedding of the `Lexer` struct.  `source` is the full input,
`chars` the not-yet-consumed suffix. -/
structure Lexer where
  len_remaining : Nat
  source : List Char
  chars : List Char
  line : Nat
  column : Nat
  offset : Nat
  deriving DecidableEq

/-- Embedding of `Lexer::new`. -/
def Lexer.new (content : List Char) : Lexer :=
  { len_remaining := content.length, source := content, chars := content,
    line := 1, column := 1, offset := 0 }

/-- Embedding of `EOF_CHAR`. -/
def EOF_CHAR : Char := '\x00'

/-- Embedding of `Lexer::first`. -/
def Lexer.first (st : Lexer) : Char :=
  st.chars.headD EOF_CHAR

/-- Embedding of `Lexer::is_eof`. -/
def Lexer.is_eof (st : Lexer) : Bool :=
  st.chars.isEmpty

/-- Embedding of `Lexer::token_length`. -/
def Lexer.token_length (st : Lexer) : Nat :=
  st.len_remaining - st.chars.length

/-- Embedding of `Lexer::reset_token_length`. -/
def Lexer.reset_token_length (st : Lexer) : Lexer :=
  { st with offset := st.offset + st.token_length, len_remaining := st.chars.length }

/-- Embedding of `Lexer::bump`.  The Rust method returns `Option<char>`
and leaves the state untouched at end of input; call sites below match on
`chars` first, so the empty case is the identity here. -/
def Lexer.bump (st : Lexer) : Lexer :=
  match st.chars with
  | [] => st
  | c :: cs =>
    if c = '\n' then { st with chars := cs, line := st.line + 1, column := 1 }
    else { st with chars := cs, column := st.column + 1 }

/-- Helper realizing the loop of `Lexer::eat_while` by structural recursion
on the remaining characters; returns the new suffix together with the
updated line and column counters. -/
def eat_while_chars (p : Char → Bool) : List Char → Nat → Nat → List Char × Nat × Nat
  | [], line, column => ([], line, column)
  | c :: cs, line, column =>
    if p c then
      if c = '\n' then eat_while_chars p cs (line + 1) 1
      else eat_while_chars p cs line (column + 1)
    else (c :: cs, line, column)

/-- Embedding of `Lexer::eat_while`. -/
def Lexer.eat_while (st : Lexer) (p : Char → Bool) : Lexer :=
  match eat_while_chars p st.chars st.line st.column with
  | (cs, line, column) => { st with chars := cs, line := line, column := column }

/-- Embedding of `Lexer::eat_until` (eats until the predicate holds). -/
def Lexer.eat_until (st : Lexer) (p : Char → Bool) : Lexer :=
  st.eat_while (fun c => !p c)

/-- Embedding of `Lexer::get_token_string`. -/
def Lexer.get_token_string (st : Lexer) : List Char :=
  (st.source.drop st.offset).take st.token_length

/-- The fatal lexical faults of `Lexer::next_token`: the bare `panic!()`
after a lone `:`, the `syntax_error` panic for unexpected characters, and
the `unwrap` of `parse::<i32>` on an out-of-range literal. -/
inductive LexPanic where
  | colonWithoutEq
  | unexpectedChars (line : Nat) (column : Nat)
  | intLiteralOutOfRange
  deriving DecidableEq

/-- Numeric value of a digit run, as `parse::<i32>` computes it. -/
def digits_to_nat (cs : List Char) : Nat :=
  cs.foldl (fun acc c => acc * 10 + (c.toNat - '0'.toNat)) 0

/-- The token-type dispatch of `Lexer::next_token` on the already-consumed
first character (state `st1` is the lexer just after that character).
Guards are tested in the order of the Rust `match` arms. -/
def Lexer.next_token_core (first_char : Char) (st1 : Lexer) :
    Except LexPanic (TokenType × Lexer) :=
  if first_char = '-' then
    if st1.first = '-' then
      .ok (.LineComment, (st1.bump).eat_while (fun c => c ≠ '\n'))
    else .ok (.OpMinus, st1)
  else if rust_std_char_is_whitespace first_char then
    .ok (.Whitespace, st1.eat_while is_whitespace)
  else if rust_std_is_ascii_alphabetic first_char then
    let st2 := st1.eat_while is_identifier_continue
    let token_string := String.mk st2.get_token_string
    if token_string = "begin" then .ok (.Begin, st2)
    else if token_string = "end" then .ok (.End, st2)
    else if token_string = "read" then .ok (.Read, st2)
    else if token_string = "write" then .ok (.Write, st2)
    else .ok (.Identifier token_string, st2)
  else if is_digit first_char then
    let st2 := st1.eat_while is_digit
    let value := digits_to_nat st2.get_token_string
    if value ≤ 2147483647 then .ok (.IntLiteral (Int.ofNat value), st2)
    else .error .intLiteralOutOfRange
  else if first_char = '(' then .ok (.LeftParen, st1)
  else if first_char = ')' then .ok (.RightParen, st1)
  else if first_char = ';' then .ok (.Semicolon, st1)
  else if first_char = ',' then .ok (.Comma, st1)
  else if first_char = ':' then
    if st1.first = '=' then .ok (.OpAssign, st1.bump)
    else .error .colonWithoutEq
  else if first_char = '+' then .ok (.OpPlus, st1)
  else
    let st2 := st1.eat_until is_expected
    .error (.unexpectedChars st2.line st2.column)

/-- Embedding of `Lexer::next_token`. -/
def Lexer.next_token (st : Lexer) : Except LexPanic (Token × Lexer) :=
  let token : Token :=
    { token_type := .Unknown, length := 0, line := st.line, column := st.column,
      offset := st.offset }
  match st.chars with
  | [] => .ok ({ token with token_type := .ScanEof }, st)
  | first_char :: _ =>
    match Lexer.next_token_core first_char st.bump with
    | .error e => .error e
    | .ok (tt, st2) =>
      .ok ({ token with token_type := tt, length := st2.token_length },
           st2.reset_token_length)

/-- Embedding of the loop inside `Lexer::tokenize`: pull tokens, skip
`Whitespace`, stop at `ScanEof`.  The `none` result is fuel exhaustion
(an artifact of the embedding; sufficiency is proved below). -/
def tokenize_fuel : Nat → Lexer → Option (Except LexPanic (List Token))
  | 0, _ => none
  | fuel + 1, st =>
    match st.next_token with
    | .error e => some (.error e)
    | .ok (t, st') =>
      if t.token_type = .Whitespace then tokenize_fuel fuel st'
      else if t.token_type = .ScanEof then some (.ok [])
      else
        match tokenize_fuel fuel st' with
        | none => none
        | some (.error e) => some (.error e)
        | some (.ok l) => some (.ok (t :: l))

/-- The public token stream of a source text (fuel instantiated with the
proven-sufficient bound). -/
def tokenize (src : List Char) : Option (Except LexPanic (List Token)) :=
  tokenize_fuel (src.length + 1) (Lexer.new src)

/-- Token types of a lexing outcome (empty on lexical error; used to state
stream-level properties). -/
def token_types_of (r : Option (Except LexPanic (List Token))) : List TokenType :=
  match r with
  | some (.ok l) => l.map Token.token_type
  | _ => []

/-! ## ast.rs : AST data model -/

/-- Embedding of `BinaryOpKind`. -/
inductive BinaryOpKind where
  | Add
  | Sub
  deriving DecidableEq

/-- Embedding of `SyscallKind`. -/
inductive SyscallKind where
  | Read
  | Write
  deriving DecidableEq

/-- Embedding of `ExprAST`/`ExprKind` (the Rust `ExprAST` struct only wraps
an `ExprKind`, so the two are merged into one inductive; constructor names
follow the `ExprKind` variants). -/
inductive ExprAST where
  | IntLiteralExprAST (value : Int)
  | VariableExprAST (name : String)
  | BinaryExprAST (op : BinaryOpKind) (lhs : ExprAST) (rhs : ExprAST)
  | SyscallExprAST (calle : SyscallKind) (args : List ExprAST)
  | AssignmentAST (var : ExprAST) (assign : ExprAST)

/-! ## ast.rs : the parser (ASTBuilder) -/

/-- Cursor state of the `ASTBuilder`: the one-token lookahead `current`
and the not-yet-pulled rest of the token stream. -/
structure PState where
  current : Token
  rest : List Token
  deriving DecidableEq

/-- Embedding of the `Iterator` impl for `ASTBuilder`: pull the next token,
substituting `Token::eof` when the stream is exhausted. -/
def PState.next (st : PState) : PState :=
  match st.rest with
  | [] => { current := Token.eof, rest := [] }
  | t :: ts => { current := t, rest := ts }

/-- The fatal parse faults of ast.rs: the two
`panic!("Unexpected token: ...")` sites (carrying the unexpected token's
type and nothing else), the `panic!("Not an int literal")`, the two bare
`panic!()` sites, and the `v.unwrap()` in `parse` on a `None` statement. -/
inductive ParsePanic where
  | unexpectedToken (t : TokenType)
  | notAnIntLiteral
  | bare
  | unwrapNone
  deriving DecidableEq

/-- Embedding of `ASTBuilder::parse_int_literal` (non-recursive). -/
def parse_int_literal (st : PState) : Except ParsePanic (Option ExprAST × PState) :=
  match st.current.token_type with
  | .IntLiteral value => .ok (some (.IntLiteralExprAST value), st.next)
  | _ => .error .notAnIntLiteral

/-- The recursive-descent parser, one record per fuel level: component `k`
at fuel `n + 1` calls components at fuel `n`, exactly one level per Rust
call or loop iteration.  `expr` is `parse_expression`, `bin_op_rhs` is
`parse_bin_op_rhs`, `primary` is `parse_primary`, `ident` is
`parse_identifier`, `args_loop` is the argument loop inside
`parse_identifier`, `paren` is `parse_paren`, `assign` is `parse_assign`,
and `top` is the loop of `parse`.  A `none` result is fuel exhaustion. -/
structure ParseFns where
  expr : PState → Option (Except ParsePanic (Option ExprAST × PState))
  bin_op_rhs : ExprAST → PState → Option (Except ParsePanic (Option ExprAST × PState))
  primary : PState → Option (Except ParsePanic (Option ExprAST × PState))
  ident : PState → Option (Except ParsePanic (Option ExprAST × PState))
  args_loop : List ExprAST → PState →
    Option (Except ParsePanic (Option (List ExprAST) × PState))
  paren : PState → Option (Except ParsePanic (Option ExprAST × PState))
  assign : PState → Option (Except ParsePanic (Option ExprAST × PState))
  top : Bool → PState → Option (Except ParsePanic (List ExprAST))

/-- The fuel-indexed family of parser functions, embedding the mutually
recursive methods of `ASTBuilder` from src/ast.rs. -/
def parseFns : Nat → ParseFns
  | 0 =>
    { expr := fun _ => none, bin_op_rhs := fun _ _ => none,
      primary := fun _ => none, ident := fun _ => none,
      args_loop := fun _ _ => none, paren := fun _ => none,
      assign := fun _ => none, top := fun _ _ => none }
  | fuel + 1 =>
    let p := parseFns fuel
    { expr := fun st =>
        match p.primary st with
        | none => none
        | some (.error e) => some (.error e)
        | some (.ok (lhs_opt, st1)) =>
          p.bin_op_rhs (lhs_opt.getD (.IntLiteralExprAST 0)) st1
      bin_op_rhs := fun lhs st =>
        match st.current.token_type with
        | .OpPlus =>
          match p.primary st.next with
          | none => none
          | some (.error e) => some (.error e)
          | some (.ok (none, st2)) => some (.ok (none, st2))
          | some (.ok (some rhs, st2)) =>
            p.bin_op_rhs (.BinaryExprAST .Add lhs rhs) st2
        | .OpMinus =>
          match p.primary st.next with
          | none => none
          | some (.error e) => some (.error e)
          | some (.ok (none, st2)) => some (.ok (none, st2))
          | some (.ok (some rhs, st2)) =>
            p.bin_op_rhs (.BinaryExprAST .Sub lhs rhs) st2
        | _ => some (.ok (some lhs, st))
      primary := fun st =>
        match st.current.token_type with
        | .Read => p.ident st
        | .Write => p.ident st
        | .Identifier _ => p.ident st
        | .IntLiteral _ => some (parse_int_literal st)
        | .LeftParen => p.paren st
        | _ => some (.ok (none, st))
      ident := fun st =>
        let syscall := fun (calle : SyscallKind) =>
          let st2 := st.next.next
          if st2.current.token_type = .RightParen then
            some (.ok (some (.SyscallExprAST calle []), st2.next))
          else
            match p.args_loop [] st2 with
            | none => none
            | some (.error e) => some (.error e)
            | some (.ok (none, st3)) => some (.ok (none, st3))
            | some (.ok (some args, st3)) =>
              some (.ok (some (.SyscallExprAST calle args), st3.next))
        match st.current.token_type with
        | .Identifier name => some (.ok (some (.VariableExprAST name), st.next))
        | .Read => syscall .Read
        | .Write => syscall .Write
        | _ => some (.error .bare)
      args_loop := fun args st =>
        match p.expr st with
        | none => none
        | some (.error e) => some (.error e)
        | some (.ok (none, st1)) => some (.ok (none, st1))
        | some (.ok (some arg, st1)) =>
          if st1.current.token_type = .RightParen then
            some (.ok (some (args ++ [arg]), st1))
          else if st1.current.token_type = .Comma then
            p.args_loop (args ++ [arg]) st1.next
          else some (.error (.unexpectedToken st1.current.token_type))
      paren := fun st =>
        match p.expr st.next with
        | none => none
        | some (.error e) => some (.error e)
        | some (.ok (none, st1)) => some (.ok (none, st1))
        | some (.ok (some v, st1)) =>
          if st1.current.token_type = .RightParen then some (.ok (some v, st1.next))
          else some (.error (.unexpectedToken st1.current.token_type))
      assign := fun st =>
        match st.current.token_type with
        | .Identifier name =>
          match p.expr st.next.next with
          | none => none
          | some (.error e) => some (.error e)
          | some (.ok (none, st1)) => some (.ok (none, st1))
          | some (.ok (some rhs, st1)) =>
            some (.ok (some (.AssignmentAST (.VariableExprAST name) rhs), st1))
        | _ => some (.error .bare)
      top := fun program_start st =>
        let st1 := st.next
        match st1.current.token_type with
        | .ScanEof => some (.ok [])
        | .Begin => p.top true st1
        | .End => p.top false st1
        | .Semicolon => p.top program_start st1
        | .LineComment => p.top program_start st1
        | t =>
          if program_start then
            let v :=
              match t with
              | .Identifier _ => p.assign st1
              | _ => p.expr st1
            match v with
            | none => none
            | some (.error e) => some (.error e)
            | some (.ok (none, _)) => some (.error .unwrapNone)
            | some (.ok (some node, st2)) =>
              match p.top program_start st2 with
              | none => none
              | some (.error e) => some (.error e)
              | some (.ok nodes) => some (.ok (node :: nodes))
          else p.top program_start st1 }

/-- Fuel bound for the parser, proved sufficient below. -/
def parser_fuel (ts : List Token) : Nat :=
  8 * ts.length + 12

/-- Embedding of `ASTBuilder::parse` on a token list (initial lookahead is
`Token::unknown`, as in `ASTBuilder::new`). -/
def parse (ts : List Token) : Option (Except ParsePanic (List ExprAST)) :=
  (parseFns (parser_fuel ts)).top false { current := Token.unknown, rest := ts }

/-- Cursor state whose lookahead is the first of the given tokens, as the
expression-level entry points of the parser expect. -/
def expr_state (ts : List Token) : PState :=
  match ts with
  | [] => { current := Token.eof, rest := [] }
  | t :: ts' => { current := t, rest := ts' }

/-- Lex and parse a source text. -/
def parse_source (src : String) : Option (Except ParsePanic (List ExprAST)) :=
  match tokenize src.toList with
  | some (.ok ts) => parse ts
  | _ => none

/-- Extracts a successfully parsed expression from an expression-level
parser result. -/
def parsed_expr (r : Option (Except ParsePanic (Option ExprAST × PState))) :
    Option ExprAST :=
  match r with
  | some (.ok (some e, _)) => some e
  | _ => none

/-! ## codegen.rs : the code generator -/

/-- The registers named by the emitted instruction text. -/
inductive Reg where
  | t0
  | t1
  | a0
  | v0
  deriving DecidableEq

/-- One emitted body instruction line, mirroring the format strings pushed
onto `CodeGenerator::asm`: `li` is load-immediate, `lw`/`sw` load/store a
register at a frame-pointer-relative offset, `add`/`sub` combine `$t0` and
`$t1` into `$t0`, `jal` calls the named stub. -/
inductive Instr where
  | li (r : Reg) (value : Int)
  | lw (r : Reg) (off : Nat)
  | sw (r : Reg) (off : Nat)
  | add
  | sub
  | jal (target : String)
  deriving DecidableEq

/-- Embedding of `Operand`. -/
inductive Operand where
  | MEM (off : Nat)
  | IMM (value : Int)
  deriving DecidableEq

/-- Embedding of the `CodeGenerator` struct.  The `BTreeMap` symbol table
is embedded as an association list in insertion order (the Rust code only
ever queries single keys via `entry`, never iterates the map, so the two
are observationally equal). -/
structure CodeGenerator where
  frame_size : Nat
  frame_pointer : Nat
  symbol_map : List (String × Nat)
  asm : List Instr
  deriving DecidableEq

/-- Embedding of `CodeGenerator::new`. -/
def CodeGenerator.new : CodeGenerator :=
  { frame_size := 32, frame_pointer := 32, symbol_map := [], asm := [] }

/-- Single-key lookup in the embedded symbol table (the read side of
`BTreeMap::entry`). -/
def lookup_symbol (m : List (String × Nat)) (name : String) : Option Nat :=
  (m.find? (fun p => p.1 = name)).map (fun p => p.2)

/-- The fatal generator faults: the two `panic!()` arms of `codegen` and
`generate_functions` for AST shapes they do not handle. -/
inductive GenPanic where
  | codegenUnhandled
  | generateFunctionsUnhandled
  deriving DecidableEq

/-- Embedding of `CodeGenerator::codegen` (the recursive expression
walker). -/
def CodeGenerator.codegen (st : CodeGenerator) :
    ExprAST → Except GenPanic (Operand × CodeGenerator)
  | .VariableExprAST name =>
    match lookup_symbol st.symbol_map name with
    | some off => .ok (.MEM off, st)
    | none =>
      .ok (.MEM st.frame_pointer,
        { st with symbol_map := st.symbol_map ++ [(name, st.frame_pointer)],
                  frame_pointer := st.frame_pointer + 4 })
  | .IntLiteralExprAST value => .ok (.IMM value, st)
  | .BinaryExprAST op lhs rhs =>
    match st.codegen lhs with
    | .error e => .error e
    | .ok (left_hand_side, st1) =>
      match st1.codegen rhs with
      | .error e => .error e
      | .ok (right_hand_side, st2) =>
        let i1 :=
          match left_hand_side with
          | .MEM off => Instr.lw .t0 off
          | .IMM imm => Instr.li .t0 imm
        let i2 :=
          match right_hand_side with
          | .MEM off => Instr.lw .t1 off
          | .IMM imm => Instr.li .t1 imm
        let i3 :=
          match op with
          | .Add => Instr.add
          | .Sub => Instr.sub
        .ok (.MEM st2.frame_pointer,
          { st2 with
              asm := st2.asm ++ [i1, i2, i3, Instr.sw .t0 st2.frame_pointer],
              frame_pointer := st2.frame_pointer + 4 })
  | .SyscallExprAST _ _ => .error .codegenUnhandled
  | .AssignmentAST _ _ => .error .codegenUnhandled

/-- The loop over `read` arguments inside `generate_functions`: each
argument is evaluated, and only a memory operand triggers the stub call
and the store of `$v0`. -/
def CodeGenerator.gen_read_args (st : CodeGenerator) :
    List ExprAST → Except GenPanic CodeGenerator
  | [] => .ok st
  | e :: es =>
    match st.codegen e with
    | .error err => .error err
    | .ok (.MEM off, st1) =>
      CodeGenerator.gen_read_args
        { st1 with asm := st1.asm ++ [Instr.jal "read", Instr.sw .v0 off] } es
    | .ok (.IMM _, st1) => CodeGenerator.gen_read_args st1 es

/-- The loop over `write` arguments inside `generate_functions`. -/
def CodeGenerator.gen_write_args (st : CodeGenerator) :
    List ExprAST → Except GenPanic CodeGenerator
  | [] => .ok st
  | e :: es =>
    match st.codegen e with
    | .error err => .error err
    | .ok (operand, st1) =>
      let load :=
        match operand with
        | .MEM off => Instr.lw .a0 off
        | .IMM imm => Instr.li .a0 imm
      CodeGenerator.gen_write_args
        { st1 with asm := st1.asm ++ [load, Instr.jal "write"] } es

/-- Embedding of `CodeGenerator::generate_functions` (one top-level
statement). -/
def CodeGenerator.generate_functions (st : CodeGenerator) :
    ExprAST → Except GenPanic CodeGenerator
  | .SyscallExprAST .Read args => st.gen_read_args args
  | .SyscallExprAST .Write args => st.gen_write_args args
  | .AssignmentAST var assign =>
    match st.codegen var with
    | .error e => .error e
    | .ok (vop, st1) =>
      let left_side :=
        match vop with
        | .MEM off => off
        | .IMM _ => 0
      match st1.codegen assign with
      | .error e => .error e
      | .ok (aop, st2) =>
        let materialize :=
          match aop with
          | .MEM off => Instr.lw .t0 off
          | .IMM imm => Instr.li .t0 imm
        .ok { st2 with asm := st2.asm ++ [materialize, Instr.sw .t0 left_side] }
  | _ => .error .generateFunctionsUnhandled

/-- The statement loop of `CodeGenerator::generate`.  The final output
string wraps `asm` in a prologue and an epilogue both sized with the final
`frame_pointer`, then the fixed prelude; the claims below are stated on
the final generator state, which determines that text. -/
def CodeGenerator.generate (st : CodeGenerator) :
    List ExprAST → Except GenPanic CodeGenerator
  | [] => .ok st
  | e :: es =>
    match st.generate_functions e with
    | .error err => .error err
    | .ok st1 => st1.generate es

/-- Errors of the whole pipeline. -/
inductive CompileError where
  | lex (e : LexPanic)
  | parseFault (e : ParsePanic)
  | gen (e : GenPanic)
  deriving DecidableEq

/-- The full pipeline of main.rs: lex, parse, generate.  (The Rust
pipeline interleaves lexing lazily with parsing; staging them changes at
most which of two fatal faults fires first, and no claim below concerns
an input with two faults.) -/
def compile (src : String) : Option (Except CompileError CodeGenerator) :=
  match tokenize src.toList with
  | none => none
  | some (.error e) => some (.error (.lex e))
  | some (.ok ts) =>
    match parse ts with
    | none => none
    | some (.error e) => some (.error (.parseFault e))
    | some (.ok prog) =>
      match CodeGenerator.new.generate prog with
      | .error e => some (.error (.gen e))
      | .ok cg => some (.ok cg)

/-- The frame-pointer-relative offsets named by load/store instructions in
an emitted instruction list. -/
def mem_offsets : List Instr → List Nat
  | [] => []
  | .lw _ off :: rest => off :: mem_offsets rest
  | .sw _ off :: rest => off :: mem_offsets rest
  | _ :: rest => mem_offsets rest

/-- Number of stub calls in an emitted instruction list. -/
def jal_count : List Instr → Nat
  | [] => 0
  | .jal _ :: rest => jal_count rest + 1
  | _ :: rest => jal_count rest

/-! ## Auxiliary definitions used by the statements below -/

/-- The token list of a source text (empty on lexical failure). -/
def tokens_of (src : String) : List Token :=
  match tokenize src.toList with
  | some (.ok l) => l
  | _ => []

/-- Termination measure for the parser: twice the number of unpulled
tokens, plus one unless the lookahead is already `ScanEof`.  Every
`PState.next` from a state with unpulled tokens strictly decreases it. -/
def PState.mu (st : PState) : Nat :=
  2 * st.rest.length + (if st.current.token_type = .ScanEof then 0 else 1)

/-- A parser result neither ran out of fuel nor, on success, grew the
measure beyond `m`. -/
def ParseProgress {α : Type} (r : Option (Except ParsePanic (α × PState)))
    (m : Nat) : Prop :=
  r ≠ none ∧ ∀ x st', r = some (.ok (x, st')) → st'.mu ≤ m

/-- Invariant of the code generator state: the frame pointer starts at 32
and stays a multiple of 4; symbol-table offsets are strictly increasing in
insertion order, multiples of 4, at least 32 and below the frame pointer;
and every load/store offset already emitted is below the frame pointer. -/
def GenInv (st : CodeGenerator) : Prop :=
  32 ≤ st.frame_pointer ∧ st.frame_pointer % 4 = 0 ∧
  List.Pairwise (fun p q : String × Nat => p.2 < q.2) st.symbol_map ∧
  (∀ p ∈ st.symbol_map, 32 ≤ p.2 ∧ p.2 % 4 = 0 ∧ p.2 < st.frame_pointer) ∧
  (∀ off ∈ mem_offsets st.asm, off < st.frame_pointer)

/-- Joint fuel-sufficiency statement for all parser components: with fuel
at least a small linear function of the state measure, no component runs
out of fuel, and successful results never grow the measure. -/
def ParserGood (f : Nat) : Prop :=
  (∀ st : PState, 4 * st.mu + 5 ≤ f → ParseProgress ((parseFns f).expr st) st.mu) ∧
  (∀ (lhs : ExprAST) (st : PState), 4 * st.mu + 2 ≤ f →
    ParseProgress ((parseFns f).bin_op_rhs lhs st) st.mu) ∧
  (∀ st : PState, 4 * st.mu + 4 ≤ f → ParseProgress ((parseFns f).primary st) st.mu) ∧
  (∀ st : PState, 4 * st.mu + 3 ≤ f → ParseProgress ((parseFns f).ident st) st.mu) ∧
  (∀ (args : List ExprAST) (st : PState), 4 * st.mu + 6 ≤ f →
    ParseProgress ((parseFns f).args_loop args st) st.mu) ∧
  (∀ st : PState, st.current.token_type = .LeftParen → 4 * st.mu + 2 ≤ f →
    ParseProgress ((parseFns f).paren st) st.mu) ∧
  (∀ st : PState, 4 * st.mu + 2 ≤ f → ParseProgress ((parseFns f).assign st) st.mu) ∧
  (∀ (program_start : Bool) (st : PState), 4 * st.mu + 8 ≤ f →
    (parseFns f).top program_start st ≠ none)

theorem eat_while_chars_length_le (p : Char → Bool) :
    ∀ (cs : List Char) (line column : Nat),
      (eat_while_chars p cs line column).1.length ≤ cs.length := by
  intro cs
  induction cs with
  | nil => intro line column; simp [eat_while_chars]
  | cons c cs ih =>
    intro line column
    rw [eat_while_chars]
    by_cases hp : p c
    · rw [if_pos hp]
      by_cases hn : c = '\n'
      · rw [if_pos hn]
        exact (ih _ _).trans (Nat.le_succ _)
      · rw [if_neg hn]
        exact (ih _ _).trans (Nat.le_succ _)
    · rw [if_neg hp]

theorem Lexer.eat_while_chars_le (st : Lexer) (p : Char → Bool) :
    (st.eat_while p).chars.length ≤ st.chars.length := by
  simp only [Lexer.eat_while]
  exact eat_while_chars_length_le p st.chars st.line st.column

theorem Lexer.bump_chars_le (st : Lexer) : st.bump.chars.length ≤ st.chars.length := by
  rcases h : st.chars with _ | ⟨c, cs⟩
  · simp [Lexer.bump, h]
  · simp only [Lexer.bump, h]
    by_cases hn : c = '\n' <;> simp [hn, h]

set_option maxHeartbeats 1000000 in
theorem Lexer.next_token_core_chars_le (first_char : Char) (st1 st2 : Lexer)
    (tt : TokenType) (h : Lexer.next_token_core first_char st1 = .ok (tt, st2)) :
    st2.chars.length ≤ st1.chars.length := by
  simp only [Lexer.next_token_core] at h
  repeat' split at h
  all_goals cases h
  all_goals
    first
    | exact le_rfl
    | exact Lexer.eat_while_chars_le _ _
    | exact le_trans (Lexer.eat_while_chars_le _ _) (Lexer.bump_chars_le _)
    | exact Lexer.bump_chars_le _

theorem Lexer.next_token_progress (st : Lexer) (t : Token) (st' : Lexer)
    (h : st.next_token = .ok (t, st')) (hne : t.token_type ≠ .ScanEof) :
    st'.chars.length < st.chars.length := by
  unfold Lexer.next_token at h
  rcases hc : st.chars with _ | ⟨c, cs⟩
  · rw [hc] at h
    dsimp only at h
    simp only [Except.ok.injEq, Prod.mk.injEq] at h
    exact absurd (congrArg Token.token_type h.1.symm) (by simpa using hne)
  · rw [hc] at h
    dsimp only at h
    rcases hcore : Lexer.next_token_core c st.bump with e | ⟨tt, st2⟩
    · rw [hcore] at h
      cases h
    · rw [hcore] at h
      simp only [Except.ok.injEq, Prod.mk.injEq] at h
      have h2 : st2.chars.length ≤ st.bump.chars.length :=
        Lexer.next_token_core_chars_le c st.bump st2 tt hcore
      have h3 : st.bump.chars.length = cs.length := by
        simp only [Lexer.bump, hc]
        by_cases hn : c = '\n' <;> simp [hn]
      have h4 : st'.chars.length = st2.chars.length := by
        rw [← h.2]
        rfl
      simp only [List.length_cons]
      omega

theorem tokenize_fuel_sufficient :
    ∀ (fuel : Nat) (st : Lexer), st.chars.length < fuel →
      tokenize_fuel fuel st ≠ none := by
  intro fuel
  induction fuel with
  | zero => intro st h; omega
  | succ f ih =>
    intro st h
    rw [tokenize_fuel]
    rcases hnt : st.next_token with e | ⟨t, st'⟩
    · simp
    · simp only []
      by_cases hw : t.token_type = .Whitespace
      · rw [if_pos hw]
        have hprog := Lexer.next_token_progress st t st' hnt (by rw [hw]; simp)
        exact ih st' (by omega)
      · rw [if_neg hw]
        by_cases he : t.token_type = .ScanEof
        · rw [if_pos he]
          simp
        · rw [if_neg he]
          have hprog := Lexer.next_token_progress st t st' hnt he
          have hne := ih st' (by omega)
          rcases hrec : tokenize_fuel f st' with _ | ⟨e2⟩ | ⟨l⟩
          · exact absurd hrec hne
          · simp
          · simp

theorem tokenize_fuel_no_whitespace :
    ∀ (fuel : Nat) (st : Lexer),
      (token_types_of (tokenize_fuel fuel st)).count TokenType.Whitespace = 0 := by
  intro fuel
  induction fuel with
  | zero => intro st; rfl
  | succ f ih =>
    intro st
    rw [tokenize_fuel]
    rcases hnt : st.next_token with e | ⟨t, st'⟩
    · rfl
    · dsimp only
      by_cases hw : t.token_type = .Whitespace
      · rw [if_pos hw]
        exact ih st'
      · rw [if_neg hw]
        by_cases he : t.token_type = .ScanEof
        · rw [if_pos he]
          rfl
        · rw [if_neg he]
          rcases hrec : tokenize_fuel f st' with _ | ⟨e2⟩ | ⟨l⟩
          · rfl
          · rfl
          · have := ih st'
            rw [hrec] at this
            simp only [token_types_of] at this ⊢
            simp [List.count_cons, this, hw]

theorem next_token_at_eof (st : Lexer) (h : st.chars = []) :
    st.next_token = .ok
      ({ token_type := .ScanEof, length := 0, line := st.line,
         column := st.column, offset := st.offset }, st) := by
  unfold Lexer.next_token
  rw [h]

/-! ## Parser measure lemmas -/

theorem PState.mu_next_le (st : PState) : st.next.mu ≤ st.mu := by
  rcases h : st.rest with _ | ⟨t, ts⟩
  · simp [PState.next, PState.mu, h, Token.eof]
  · simp only [PState.next, PState.mu, h, List.length_cons]
    by_cases ht : t.token_type = .ScanEof <;>
      by_cases hc : st.current.token_type = .ScanEof <;> simp [ht, hc] <;> omega

theorem PState.mu_next_lt_of_rest (st : PState) (h : st.rest ≠ []) :
    st.next.mu < st.mu := by
  rcases hr : st.rest with _ | ⟨t, ts⟩
  · exact absurd hr h
  · simp only [PState.next, PState.mu, hr, List.length_cons]
    by_cases ht : t.token_type = .ScanEof <;>
      by_cases hc : st.current.token_type = .ScanEof <;> simp [ht, hc] <;> omega

theorem PState.mu_next_lt_of_current (st : PState)
    (h : st.current.token_type ≠ .ScanEof) : st.next.mu < st.mu := by
  rcases hr : st.rest with _ | ⟨t, ts⟩
  · simp only [PState.next, PState.mu, hr, List.length_nil, Token.eof]
    simp [h]
  · exact st.mu_next_lt_of_rest (by simp [hr])

/-! ## ParseProgress helpers -/

theorem ParseProgress.error {α : Type} (e : ParsePanic) (m : Nat) :
    ParseProgress (α := α) (some (.error e)) m := by
  constructor
  · simp
  · intro x st' h
    simp at h

theorem ParseProgress.okResult {α : Type} (x : α) (st' : PState) (m : Nat)
    (h : st'.mu ≤ m) : ParseProgress (some (.ok (x, st'))) m := by
  constructor
  · simp
  · intro y s hh
    simp only [Option.some.injEq, Except.ok.injEq, Prod.mk.injEq] at hh
    rw [← hh.2]
    exact h

theorem ParseProgress.mono {α : Type} {r : Option (Except ParsePanic (α × PState))}
    {m m' : Nat} (hle : m ≤ m') (h : ParseProgress r m) : ParseProgress r m' := by
  exact ⟨h.1, fun x st' hr => (h.2 x st' hr).trans hle⟩

theorem parser_step_expr (f : Nat)
    (ihB : ∀ (lhs : ExprAST) (st : PState), 4 * st.mu + 2 ≤ f →
      ParseProgress ((parseFns f).bin_op_rhs lhs st) st.mu)
    (ihP : ∀ st : PState, 4 * st.mu + 4 ≤ f →
      ParseProgress ((parseFns f).primary st) st.mu) :
    ∀ st : PState, 4 * st.mu + 5 ≤ f + 1 →
      ParseProgress ((parseFns (f + 1)).expr st) st.mu := by
  intro st hf
  have hp := ihP st (by omega)
  simp only [parseFns]
  rcases hq : (parseFns f).primary st with _ | ⟨e | ⟨xopt, st1⟩⟩
  · exact absurd hq hp.1
  · simp only [hq]
    exact ParseProgress.error e st.mu
  · have h1 : st1.mu ≤ st.mu := hp.2 _ _ hq
    simp only [hq]
    exact (ihB _ st1 (by omega)).mono h1

theorem parser_step_bin (f : Nat)
    (ihB : ∀ (lhs : ExprAST) (st : PState), 4 * st.mu + 2 ≤ f →
      ParseProgress ((parseFns f).bin_op_rhs lhs st) st.mu)
    (ihP : ∀ st : PState, 4 * st.mu + 4 ≤ f →
      ParseProgress ((parseFns f).primary st) st.mu) :
    ∀ (lhs : ExprAST) (st : PState), 4 * st.mu + 2 ≤ f + 1 →
      ParseProgress ((parseFns (f + 1)).bin_op_rhs lhs st) st.mu := by
  intro lhs st hf
  simp only [parseFns]
  split
  case _ heq =>
    have hlt : st.next.mu < st.mu := st.mu_next_lt_of_current (by rw [heq]; simp)
    have hp := ihP st.next (by omega)
    rcases hq : (parseFns f).primary st.next with _ | ⟨e | ⟨ropt, st2⟩⟩
    · exact absurd hq hp.1
    · simp only [hq]
      exact ParseProgress.error e st.mu
    · have h2 : st2.mu ≤ st.next.mu := hp.2 _ _ hq
      rcases ropt with _ | rhs
      · simp only [hq]
        exact ParseProgress.okResult _ st2 st.mu (by omega)
      · simp only [hq]
        exact (ihB _ st2 (by omega)).mono (by omega)
  case _ heq =>
    have hlt : st.next.mu < st.mu := st.mu_next_lt_of_current (by rw [heq]; simp)
    have hp := ihP st.next (by omega)
    rcases hq : (parseFns f).primary st.next with _ | ⟨e | ⟨ropt, st2⟩⟩
    · exact absurd hq hp.1
    · simp only [hq]
      exact ParseProgress.error e st.mu
    · have h2 : st2.mu ≤ st.next.mu := hp.2 _ _ hq
      rcases ropt with _ | rhs
      · simp only [hq]
        exact ParseProgress.okResult _ st2 st.mu (by omega)
      · simp only [hq]
        exact (ihB _ st2 (by omega)).mono (by omega)
  case _ =>
    exact ParseProgress.okResult _ st st.mu le_rfl

theorem parse_int_literal_progress (st : PState) :
    ParseProgress (some (parse_int_literal st)) st.mu := by
  unfold parse_int_literal
  split
  · exact ParseProgress.okResult _ st.next st.mu st.mu_next_le
  · exact ParseProgress.error _ st.mu

theorem parser_step_primary (f : Nat)
    (ihI : ∀ st : PState, 4 * st.mu + 3 ≤ f →
      ParseProgress ((parseFns f).ident st) st.mu)
    (ihPar : ∀ st : PState, st.current.token_type = .LeftParen → 4 * st.mu + 2 ≤ f →
      ParseProgress ((parseFns f).paren st) st.mu) :
    ∀ st : PState, 4 * st.mu + 4 ≤ f + 1 →
      ParseProgress ((parseFns (f + 1)).primary st) st.mu := by
  intro st hf
  simp only [parseFns]
  split
  · exact ihI st (by omega)
  · exact ihI st (by omega)
  · exact ihI st (by omega)
  · exact parse_int_literal_progress st
  case _ heq => exact ihPar st heq (by omega)
  · exact ParseProgress.okResult _ st st.mu le_rfl

theorem parser_step_ident (f : Nat)
    (ihA : ∀ (args : List ExprAST) (st : PState), 4 * st.mu + 6 ≤ f →
      ParseProgress ((parseFns f).args_loop args st) st.mu) :
    ∀ st : PState, 4 * st.mu + 3 ≤ f + 1 →
      ParseProgress ((parseFns (f + 1)).ident st) st.mu := by
  intro st hf
  simp only [parseFns]
  split
  case _ name heq =>
    exact ParseProgress.okResult _ st.next st.mu st.mu_next_le
  case _ heq =>
    have hlt : st.next.mu < st.mu := st.mu_next_lt_of_current (by rw [heq]; simp)
    have h2 : st.next.next.mu ≤ st.next.mu := st.next.mu_next_le
    by_cases hrp : st.next.next.current.token_type = .RightParen
    · rw [if_pos hrp]
      exact ParseProgress.okResult _ _ st.mu
        (by have := st.next.next.mu_next_le; omega)
    · rw [if_neg hrp]
      have ha := ihA [] st.next.next (by omega)
      rcases hq : (parseFns f).args_loop [] st.next.next with _ | ⟨e | ⟨argsopt, st3⟩⟩
      · exact absurd hq ha.1
      · simp only [hq]
        exact ParseProgress.error e st.mu
      · have h3 : st3.mu ≤ st.next.next.mu := ha.2 _ _ hq
        rcases argsopt with _ | args
        · simp only [hq]
          exact ParseProgress.okResult _ st3 st.mu (by omega)
        · simp only [hq]
          exact ParseProgress.okResult _ st3.next st.mu
            (by have := st3.mu_next_le; omega)
  case _ heq =>
    have hlt : st.next.mu < st.mu := st.mu_next_lt_of_current (by rw [heq]; simp)
    have h2 : st.next.next.mu ≤ st.next.mu := st.next.mu_next_le
    by_cases hrp : st.next.next.current.token_type = .RightParen
    · rw [if_pos hrp]
      exact ParseProgress.okResult _ _ st.mu
        (by have := st.next.next.mu_next_le; omega)
    · rw [if_neg hrp]
      have ha := ihA [] st.next.next (by omega)
      rcases hq : (parseFns f).args_loop [] st.next.next with _ | ⟨e | ⟨argsopt, st3⟩⟩
      · exact absurd hq ha.1
      · simp only [hq]
        exact ParseProgress.error e st.mu
      · have h3 : st3.mu ≤ st.next.next.mu := ha.2 _ _ hq
        rcases argsopt with _ | args
        · simp only [hq]
          exact ParseProgress.okResult _ st3 st.mu (by omega)
        · simp only [hq]
          exact ParseProgress.okResult _ st3.next st.mu
            (by have := st3.mu_next_le; omega)
  case _ =>
    exact ParseProgress.error _ st.mu

theorem parser_step_args (f : Nat)
    (ihE : ∀ st : PState, 4 * st.mu + 5 ≤ f →
      ParseProgress ((parseFns f).expr st) st.mu)
    (ihA : ∀ (args : List ExprAST) (st : PState), 4 * st.mu + 6 ≤ f →
      ParseProgress ((parseFns f).args_loop args st) st.mu) :
    ∀ (args : List ExprAST) (st : PState), 4 * st.mu + 6 ≤ f + 1 →
      ParseProgress ((parseFns (f + 1)).args_loop args st) st.mu := by
  intro args st hf
  simp only [parseFns]
  have he := ihE st (by omega)
  rcases hq : (parseFns f).expr st with _ | ⟨e | ⟨argopt, st1⟩⟩
  · exact absurd hq he.1
  · simp only [hq]
    exact ParseProgress.error e st.mu
  · have h1 : st1.mu ≤ st.mu := he.2 _ _ hq
    rcases argopt with _ | arg
    · simp only [hq]
      exact ParseProgress.okResult _ st1 st.mu h1
    · simp only [hq]
      by_cases hrp : st1.current.token_type = .RightParen
      · rw [if_pos hrp]
        exact ParseProgress.okResult _ st1 st.mu h1
      · rw [if_neg hrp]
        by_cases hcm : st1.current.token_type = .Comma
        · rw [if_pos hcm]
          have hlt : st1.next.mu < st1.mu := st1.mu_next_lt_of_current (by rw [hcm]; simp)
          exact (ihA _ st1.next (by omega)).mono (by omega)
        · rw [if_neg hcm]
          exact ParseProgress.error _ st.mu

theorem parser_step_paren (f : Nat)
    (ihE : ∀ st : PState, 4 * st.mu + 5 ≤ f →
      ParseProgress ((parseFns f).expr st) st.mu) :
    ∀ st : PState, st.current.token_type = .LeftParen → 4 * st.mu + 2 ≤ f + 1 →
      ParseProgress ((parseFns (f + 1)).paren st) st.mu := by
  intro st hlp hf
  simp only [parseFns]
  have hlt : st.next.mu < st.mu := st.mu_next_lt_of_current (by rw [hlp]; simp)
  have he := ihE st.next (by omega)
  rcases hq : (parseFns f).expr st.next with _ | ⟨e | ⟨vopt, st1⟩⟩
  · exact absurd hq he.1
  · simp only [hq]
    exact ParseProgress.error e st.mu
  · have h1 : st1.mu ≤ st.next.mu := he.2 _ _ hq
    rcases vopt with _ | v
    · simp only [hq]
      exact ParseProgress.okResult _ st1 st.mu (by omega)
    · simp only [hq]
      by_cases hrp : st1.current.token_type = .RightParen
      · rw [if_pos hrp]
        exact ParseProgress.okResult _ st1.next st.mu
          (by have := st1.mu_next_le; omega)
      · rw [if_neg hrp]
        exact ParseProgress.error _ st.mu

theorem parser_step_assign (f : Nat)
    (ihE : ∀ st : PState, 4 * st.mu + 5 ≤ f →
      ParseProgress ((parseFns f).expr st) st.mu) :
    ∀ st : PState, 4 * st.mu + 2 ≤ f + 1 →
      ParseProgress ((parseFns (f + 1)).assign st) st.mu := by
  intro st hf
  simp only [parseFns]
  split
  case _ name heq =>
    have hlt : st.next.mu < st.mu := st.mu_next_lt_of_current (by rw [heq]; simp)
    have h2 : st.next.next.mu ≤ st.next.mu := st.next.mu_next_le
    have he := ihE st.next.next (by omega)
    rcases hq : (parseFns f).expr st.next.next with _ | ⟨e | ⟨vopt, st1⟩⟩
    · exact absurd hq he.1
    · simp only [hq]
      exact ParseProgress.error e st.mu
    · have h1 : st1.mu ≤ st.next.next.mu := he.2 _ _ hq
      rcases vopt with _ | rhs
      · simp only [hq]
        exact ParseProgress.okResult _ st1 st.mu (by omega)
      · simp only [hq]
        exact ParseProgress.okResult _ st1 st.mu (by omega)
  case _ =>
    exact ParseProgress.error _ st.mu

theorem parser_step_top (f : Nat)
    (ihE : ∀ st : PState, 4 * st.mu + 5 ≤ f →
      ParseProgress ((parseFns f).expr st) st.mu)
    (ihAsg : ∀ st : PState, 4 * st.mu + 2 ≤ f →
      ParseProgress ((parseFns f).assign st) st.mu)
    (ihT : ∀ (program_start : Bool) (st : PState), 4 * st.mu + 8 ≤ f →
      (parseFns f).top program_start st ≠ none) :
    ∀ (program_start : Bool) (st : PState), 4 * st.mu + 8 ≤ f + 1 →
      (parseFns (f + 1)).top program_start st ≠ none := by
  intro start st hf
  simp only [parseFns]
  rcases hr : st.rest with _ | ⟨t, ts⟩
  · have heof : st.next.current.token_type = .ScanEof := by
      simp [PState.next, hr, Token.eof]
    rw [heof]
    simp
  · have hlt : st.next.mu < st.mu := st.mu_next_lt_of_rest (by simp [hr])
    split
    · simp
    · exact ihT true st.next (by omega)
    · exact ihT false st.next (by omega)
    · exact ihT start st.next (by omega)
    · exact ihT start st.next (by omega)
    · rcases start with _ | _
      · simp only [Bool.false_eq_true, if_false]
        exact ihT false st.next (by omega)
      · simp only [if_true]
        have hv : ParseProgress
            (match st.next.current.token_type with
             | TokenType.Identifier _ => (parseFns f).assign st.next
             | _ => (parseFns f).expr st.next) st.next.mu := by
          split
          · exact ihAsg st.next (by omega)
          · exact ihE st.next (by omega)
        rcases hq : (match st.next.current.token_type with
             | TokenType.Identifier _ => (parseFns f).assign st.next
             | _ => (parseFns f).expr st.next) with _ | ⟨e | ⟨nodeopt, st2⟩⟩
        · exact absurd hq hv.1
        · simp only [hq]
          simp
        · have h2 : st2.mu ≤ st.next.mu := hv.2 _ _ hq
          rcases nodeopt with _ | node
          · simp only [hq]
            simp
          · simp only [hq]
            have ht2 := ihT true st2 (by omega)
            rcases hq2 : (parseFns f).top true st2 with _ | ⟨e2⟩ | ⟨nodes⟩
            · exact absurd hq2 ht2
            · simp
            · simp

theorem parserGood_all : ∀ f : Nat, ParserGood f := by
  intro f
  induction f with
  | zero =>
    exact ⟨fun st h => absurd h (by omega), fun lhs st h => absurd h (by omega),
      fun st h => absurd h (by omega), fun st h => absurd h (by omega),
      fun args st h => absurd h (by omega), fun st hp h => absurd h (by omega),
      fun st h => absurd h (by omega), fun b st h => absurd h (by omega)⟩
  | succ f ih =>
    obtain ⟨ihE, ihB, ihP, ihI, ihA, ihPar, ihAsg, ihT⟩ := ih
    exact ⟨parser_step_expr f ihB ihP, parser_step_bin f ihB ihP,
      parser_step_primary f ihI ihPar, parser_step_ident f ihA,
      parser_step_args f ihE ihA, parser_step_paren f ihE,
      parser_step_assign f ihE, parser_step_top f ihE ihAsg ihT⟩

theorem parse_never_out_of_fuel (ts : List Token) : parse ts ≠ none := by
  have h := (parserGood_all (parser_fuel ts)).2.2.2.2.2.2.2 false
    { current := Token.unknown, rest := ts }
  apply h
  have : PState.mu { current := Token.unknown, rest := ts } = 2 * ts.length + 1 := by
    simp [PState.mu, Token.unknown]
  rw [this, parser_fuel]
  omega

theorem parse_top_current_irrelevant (f : Nat) (start : Bool) (c1 c2 : Token)
    (r : List Token) :
    (parseFns f).top start { current := c1, rest := r } =
      (parseFns f).top start { current := c2, rest := r } := by
  cases f with
  | zero => rfl
  | succ f =>
    simp only [parseFns]
    rw [show PState.next { current := c1, rest := r } =
          PState.next { current := c2, rest := r } from by
        cases r <;> rfl]

theorem parse_top_skips_junk :
    ∀ (j : List Token) (f : Nat) (c1 c2 : Token) (ts : List Token),
      (∀ t ∈ j, t.token_type ≠ .Begin ∧ t.token_type ≠ .ScanEof) →
      (parseFns (f + j.length)).top false { current := c1, rest := j ++ ts } =
        (parseFns f).top false { current := c2, rest := ts } := by
  intro j
  induction j with
  | nil =>
    intro f c1 c2 ts hj
    exact parse_top_current_irrelevant f false c1 c2 ts
  | cons t j ih =>
    intro f c1 c2 ts hj
    show (parseFns ((f + j.length) + 1)).top false
        { current := c1, rest := (t :: j) ++ ts } = _
    simp only [parseFns]
    have hnext : PState.next { current := c1, rest := (t :: j) ++ ts } =
        { current := t, rest := j ++ ts } := rfl
    rw [hnext]
    have ht := hj t (by simp)
    have hj' : ∀ u ∈ j, u.token_type ≠ .Begin ∧ u.token_type ≠ .ScanEof :=
      fun u hu => hj u (by simp [hu])
    split
    case _ heq => exact absurd heq ht.2
    case _ heq => exact absurd heq ht.1
    case _ heq => exact ih f t c2 ts hj'
    case _ heq => exact ih f t c2 ts hj'
    case _ heq => exact ih f t c2 ts hj'
    case _ =>
      simp only [Bool.false_eq_true, if_false]
      exact ih f t c2 ts hj'

/-! ## Code generator lemmas -/

theorem lookup_symbol_append {m m' : List (String × Nat)} {n : String} {off : Nat}
    (h : lookup_symbol m n = some off) : lookup_symbol (m ++ m') n = some off := by
  induction m with
  | nil => simp [lookup_symbol] at h
  | cons p ps ih =>
    simp only [lookup_symbol, List.find?] at h ⊢
    by_cases hp : p.1 = n
    · simp only [hp, decide_True] at h ⊢
      simpa using h
    · simp only [hp, decide_False] at h ⊢
      exact ih h

theorem lookup_symbol_mem {m : List (String × Nat)} {n : String} {off : Nat}
    (h : lookup_symbol m n = some off) : (∃ p ∈ m, p.2 = off) := by
  simp only [lookup_symbol, Option.map_eq_some'] at h
  obtain ⟨p, hp, hoff⟩ := h
  exact ⟨p, List.mem_of_find?_eq_some hp, hoff⟩

theorem mem_offsets_append (a b : List Instr) :
    mem_offsets (a ++ b) = mem_offsets a ++ mem_offsets b := by
  induction a with
  | nil => simp [mem_offsets]
  | cons i is ih =>
    cases i <;> simp [mem_offsets, ih]

/-- Induction principle for `ExprAST` with the list of syscall arguments
handled pointwise. -/
theorem ExprAST.inductionOn {motive : ExprAST → Prop}
    (int : ∀ value, motive (.IntLiteralExprAST value))
    (var : ∀ name, motive (.VariableExprAST name))
    (bin : ∀ op lhs rhs, motive lhs → motive rhs → motive (.BinaryExprAST op lhs rhs))
    (sys : ∀ calle args, (∀ x ∈ args, motive x) → motive (.SyscallExprAST calle args))
    (asg : ∀ v a, motive v → motive a → motive (.AssignmentAST v a)) :
    ∀ e, motive e :=
  fun e =>
    @ExprAST.rec motive (fun l => ∀ x ∈ l, motive x)
      int var bin sys asg
      (fun x hx => absurd hx (List.not_mem_nil x))
      (fun h t mh mt x hx => by
        rcases List.mem_cons.mp hx with rfl | hx2
        · exact mh
        · exact mt x hx2)
      e

theorem codegen_preserves :
    ∀ (e : ExprAST) (st : CodeGenerator) (op : Operand) (st' : CodeGenerator),
      st.codegen e = .ok (op, st') →
      st.frame_pointer ≤ st'.frame_pointer ∧
      (∀ n off, lookup_symbol st.symbol_map n = some off →
        lookup_symbol st'.symbol_map n = some off) ∧
      (GenInv st → GenInv st' ∧ ∀ o, op = .MEM o → o < st'.frame_pointer) := by
  intro e
  induction e using ExprAST.inductionOn with
  | int value =>
    intro st op st' h
    simp only [CodeGenerator.codegen] at h
    cases h
    refine ⟨le_rfl, fun n off h0 => h0, fun inv => ⟨inv, ?_⟩⟩
    intro o ho
    cases ho
  | var name =>
    intro st op st' h
    simp only [CodeGenerator.codegen] at h
    split at h
    case _ off0 heq =>
      cases h
      refine ⟨le_rfl, fun n off h0 => h0, fun inv => ⟨inv, ?_⟩⟩
      intro o ho
      cases ho
      obtain ⟨p, hp, hoff⟩ := lookup_symbol_mem heq
      have := inv.2.2.2.1 p hp
      omega
    case _ heq =>
      cases h
      refine ⟨by simp, ?_, ?_⟩
      · intro n off h0
        simpa using lookup_symbol_append h0
      · intro inv
        obtain ⟨h32, h4, hpw, hmem, hasm⟩ := inv
        constructor
        · refine ⟨by simp; omega, by simp; omega, ?_, ?_, ?_⟩
          · simp only []
            rw [List.pairwise_append]
            refine ⟨hpw, by simp, ?_⟩
            intro a ha b hb
            simp only [List.mem_singleton] at hb
            subst hb
            exact (hmem a ha).2.2
          · intro p hp
            simp only [List.mem_append, List.mem_singleton] at hp
            rcases hp with hp | hp
            · have := hmem p hp
              simp only []
              refine ⟨this.1, this.2.1, by omega⟩
            · subst hp
              simp only []
              exact ⟨h32, h4, by omega⟩
          · intro off hoff
            simp only [] at hoff
            have := hasm off hoff
            simp only []
            omega
        · intro o ho
          cases ho
          simp
  | bin op0 l r ihl ihr =>
    intro st op st' h
    simp only [CodeGenerator.codegen] at h
    split at h
    · simp at h
    case _ lop st1 heql =>
      split at h
      · simp at h
      case _ rop st2 heqr =>
        cases h
        obtain ⟨m1, p1, g1⟩ := ihl st lop st1 heql
        obtain ⟨m2, p2, g2⟩ := ihr st1 rop st2 heqr
        refine ⟨by simp; omega, ?_, ?_⟩
        · intro n off h0
          simpa using p2 n off (p1 n off h0)
        · intro inv
          obtain ⟨inv1, b1⟩ := g1 inv
          obtain ⟨inv2, b2⟩ := g2 inv1
          obtain ⟨h32, h4, hpw, hmem, hasm⟩ := inv2
          constructor
          · refine ⟨by simp; omega, by simp; omega, by simpa using hpw, ?_, ?_⟩
            · intro p hp
              simp only [] at hp
              have := hmem p hp
              simp only []
              refine ⟨this.1, this.2.1, by omega⟩
            · intro off hoff
              simp only [] at hoff
              rw [mem_offsets_append] at hoff
              rcases List.mem_append.mp hoff with hoff | hoff
              · have := hasm off hoff
                simp only []
                omega
              · simp only []
                cases op0 <;> rcases lop with o1 | i1 <;> rcases rop with o2 | i2 <;>
                  simp only [mem_offsets, List.mem_cons, List.not_mem_nil,
                    or_false] at hoff <;>
                  first
                  | (rcases hoff with rfl | rfl | rfl
                     exacts [by have := b1 _ rfl; omega, by have := b2 _ rfl; omega,
                       by omega])
                  | (rcases hoff with rfl | rfl
                     exacts [by have := b1 _ rfl; omega, by omega])
                  | (rcases hoff with rfl | rfl
                     exacts [by have := b2 _ rfl; omega, by omega])
                  | (rcases hoff with rfl
                     exacts [by omega])
          · intro o ho
            cases ho
            simp
  | sys k args ihargs =>
    intro st op st' h
    simp only [CodeGenerator.codegen] at h
    simp at h
  | asg v a ihv iha =>
    intro st op st' h
    simp only [CodeGenerator.codegen] at h
    simp at h

theorem gen_read_args_preserves :
    ∀ (args : List ExprAST) (st st' : CodeGenerator),
      st.gen_read_args args = .ok st' →
      st.frame_pointer ≤ st'.frame_pointer ∧
      (∀ n off, lookup_symbol st.symbol_map n = some off →
        lookup_symbol st'.symbol_map n = some off) ∧
      (GenInv st → GenInv st') := by
  intro args
  induction args with
  | nil =>
    intro st st' h
    simp only [CodeGenerator.gen_read_args] at h
    cases h
    exact ⟨le_rfl, fun n off h0 => h0, fun inv => inv⟩
  | cons e es ih =>
    intro st st' h
    simp only [CodeGenerator.gen_read_args] at h
    split at h
    · simp at h
    case _ off st1 heq =>
      obtain ⟨m1, p1, g1⟩ := codegen_preserves e st (.MEM off) st1 heq
      obtain ⟨m2, p2, g2⟩ := ih _ st' h
      refine ⟨by simp at m2; omega, ?_, ?_⟩
      · intro n off0 h0
        have := p1 n off0 h0
        exact p2 n off0 (by simpa using this)
      · intro inv
        obtain ⟨inv1, hb⟩ := g1 inv
        apply g2
        obtain ⟨h32, h4, hpw, hmem, hasm⟩ := inv1
        refine ⟨by simpa using h32, by simpa using h4, by simpa using hpw,
          by simpa using hmem, ?_⟩
        intro o ho
        simp only [] at ho
        rw [mem_offsets_append] at ho
        simp only []
        rcases List.mem_append.mp ho with ho | ho
        · exact hasm o ho
        · simp only [mem_offsets, List.mem_cons, List.not_mem_nil, or_false] at ho
          rcases ho with rfl
          exact hb _ rfl
    case _ imm st1 heq =>
      obtain ⟨m1, p1, g1⟩ := codegen_preserves e st (.IMM imm) st1 heq
      obtain ⟨m2, p2, g2⟩ := ih _ st' h
      refine ⟨by omega, fun n off0 h0 => p2 n off0 (p1 n off0 h0),
        fun inv => g2 (g1 inv).1⟩

theorem gen_write_args_preserves :
    ∀ (args : List ExprAST) (st st' : CodeGenerator),
      st.gen_write_args args = .ok st' →
      st.frame_pointer ≤ st'.frame_pointer ∧
      (∀ n off, lookup_symbol st.symbol_map n = some off →
        lookup_symbol st'.symbol_map n = some off) ∧
      (GenInv st → GenInv st') := by
  intro args
  induction args with
  | nil =>
    intro st st' h
    simp only [CodeGenerator.gen_write_args] at h
    cases h
    exact ⟨le_rfl, fun n off h0 => h0, fun inv => inv⟩
  | cons e es ih =>
    intro st st' h
    simp only [CodeGenerator.gen_write_args] at h
    split at h
    · simp at h
    case _ operand st1 heq =>
      obtain ⟨m1, p1, g1⟩ := codegen_preserves e st operand st1 heq
      obtain ⟨m2, p2, g2⟩ := ih _ st' h
      refine ⟨by simp at m2; omega, ?_, ?_⟩
      · intro n off0 h0
        have := p1 n off0 h0
        exact p2 n off0 (by simpa using this)
      · intro inv
        obtain ⟨inv1, hb⟩ := g1 inv
        apply g2
        obtain ⟨h32, h4, hpw, hmem, hasm⟩ := inv1
        refine ⟨by simpa using h32, by simpa using h4, by simpa using hpw,
          by simpa using hmem, ?_⟩
        intro o ho
        simp only [] at ho
        rw [mem_offsets_append] at ho
        simp only []
        rcases List.mem_append.mp ho with ho | ho
        · exact hasm o ho
        · rcases operand with o1 | i1 <;>
            simp only [mem_offsets, List.mem_cons, List.not_mem_nil,
              or_false] at ho
          rcases ho with rfl
          exact hb _ rfl

theorem generate_functions_preserves (e : ExprAST) (st st' : CodeGenerator)
    (h : st.generate_functions e = .ok st') :
    st.frame_pointer ≤ st'.frame_pointer ∧
    (∀ n off, lookup_symbol st.symbol_map n = some off →
      lookup_symbol st'.symbol_map n = some off) ∧
    (GenInv st → GenInv st') := by
  rcases e with value | name | ⟨op, l, r⟩ | ⟨k, args⟩ | ⟨v, a⟩
  · simp [CodeGenerator.generate_functions] at h
  · simp [CodeGenerator.generate_functions] at h
  · simp [CodeGenerator.generate_functions] at h
  · rcases k with _ | _
    · exact gen_read_args_preserves args st st' h
    · exact gen_write_args_preserves args st st' h
  · simp only [CodeGenerator.generate_functions] at h
    split at h
    · simp at h
    case _ vop st1 heqv =>
      split at h
      · simp at h
      case _ aop st2 heqa =>
        cases h
        obtain ⟨m1, p1, g1⟩ := codegen_preserves v st vop st1 heqv
        obtain ⟨m2, p2, g2⟩ := codegen_preserves a st1 aop st2 heqa
        refine ⟨by simp; omega, ?_, ?_⟩
        · intro n off0 h0
          simpa using p2 n off0 (p1 n off0 h0)
        · intro inv
          obtain ⟨inv1, hb1⟩ := g1 inv
          obtain ⟨inv2, hb2⟩ := g2 inv1
          obtain ⟨h32, h4, hpw, hmem, hasm⟩ := inv2
          refine ⟨by simpa using h32, by simpa using h4, by simpa using hpw,
            by simpa using hmem, ?_⟩
          intro o ho
          simp only [] at ho
          rw [mem_offsets_append] at ho
          simp only []
          rcases List.mem_append.mp ho with ho | ho
          · exact hasm o ho
          · rcases aop with o2 | i2 <;> rcases vop with o1 | i1 <;>
              simp only [mem_offsets, List.mem_cons, List.not_mem_nil,
                or_false] at ho <;>
              first
              | (rcases ho with rfl | rfl
                 exacts [hb2 _ rfl, by have := hb1 _ rfl; omega])
              | (rcases ho with rfl | rfl
                 exacts [hb2 _ rfl, by omega])
              | (rcases ho with rfl
                 exacts [by have := hb1 _ rfl; omega])
              | (rcases ho with rfl
                 exacts [by omega])

theorem generate_preserves :
    ∀ (stmts : List ExprAST) (st st' : CodeGenerator),
      st.generate stmts = .ok st' →
      st.frame_pointer ≤ st'.frame_pointer ∧
      (∀ n off, lookup_symbol st.symbol_map n = some off →
        lookup_symbol st'.symbol_map n = some off) ∧
      (GenInv st → GenInv st') := by
  intro stmts
  induction stmts with
  | nil =>
    intro st st' h
    simp only [CodeGenerator.generate] at h
    cases h
    exact ⟨le_rfl, fun n off h0 => h0, fun inv => inv⟩
  | cons e es ih =>
    intro st st' h
    simp only [CodeGenerator.generate] at h
    split at h
    · simp at h
    case _ st1 heq =>
      obtain ⟨m1, p1, g1⟩ := generate_functions_preserves e st st1 heq
      obtain ⟨m2, p2, g2⟩ := ih st1 st' h
      exact ⟨by omega, fun n off h0 => p2 n off (p1 n off h0),
        fun inv => g2 (g1 inv)⟩

theorem genInv_new : GenInv CodeGenerator.new := by
  refine ⟨by simp [CodeGenerator.new], by simp [CodeGenerator.new], ?_, ?_, ?_⟩
  · simp [CodeGenerator.new]
  · simp [CodeGenerator.new]
  · simp [CodeGenerator.new, mem_offsets]

theorem codegen_var_found (st : CodeGenerator) (n : String) (off : Nat)
    (h : lookup_symbol st.symbol_map n = some off) :
    st.codegen (.VariableExprAST n) = .ok (.MEM off, st) := by
  simp [CodeGenerator.codegen, h]

theorem codegen_var_fresh (st : CodeGenerator) (n : String)
    (h : lookup_symbol st.symbol_map n = none) :
    st.codegen (.VariableExprAST n) =
      .ok (.MEM st.frame_pointer,
        { st with symbol_map := st.symbol_map ++ [(n, st.frame_pointer)],
                  frame_pointer := st.frame_pointer + 4 }) := by
  simp [CodeGenerator.codegen, h]

theorem parse_top_nil (f : Nat) (c : Token) (start : Bool) :
    (parseFns (f + 1)).top start { current := c, rest := [] } = some (.ok []) := rfl

/-- C1: the public token iteration skips only `Whitespace`; a source that
is one line comment yields a `LineComment` token, observed downstream. -/
theorem c1_counterexample :
    token_types_of (tokenize "--x".toList) = [TokenType.LineComment] := by rfl

/-- C1 (amended): the token iteration of `Lexer::tokenize` never yields a
`Whitespace` token, at any fuel and from any lexer state; `LineComment`
tokens however are yielded (witnessed by the source `--x`), and it is the
parser's top-level loop that skips those. -/
theorem c1_no_whitespace_tokens :
    (∀ (fuel : Nat) (st : Lexer),
      (token_types_of (tokenize_fuel fuel st)).count TokenType.Whitespace = 0) ∧
    (token_types_of (tokenize "--x".toList)).count TokenType.LineComment = 1 :=
  ⟨tokenize_fuel_no_whitespace, by rfl⟩

/-- C2: symbol-table stability: a variable reference with an existing
entry returns the stored offset and leaves the state unchanged; a first
reference allocates the next offset by appending a new entry; and every
existing binding survives any expression or statement-list generation
unchanged (the table is append-only). -/
theorem c2_symbol_table_stability :
    (∀ (st : CodeGenerator) (n : String) (off : Nat),
      lookup_symbol st.symbol_map n = some off →
      st.codegen (.VariableExprAST n) = .ok (.MEM off, st)) ∧
    (∀ (st : CodeGenerator) (n : String),
      lookup_symbol st.symbol_map n = none →
      st.codegen (.VariableExprAST n) =
        .ok (.MEM st.frame_pointer,
          { st with symbol_map := st.symbol_map ++ [(n, st.frame_pointer)],
                    frame_pointer := st.frame_pointer + 4 })) ∧
    (∀ (e : ExprAST) (st : CodeGenerator) (op : Operand) (st' : CodeGenerator),
      st.codegen e = .ok (op, st') → ∀ n off,
      lookup_symbol st.symbol_map n = some off →
      lookup_symbol st'.symbol_map n = some off) ∧
    (∀ (stmts : List ExprAST) (st st' : CodeGenerator),
      st.generate stmts = .ok st' → ∀ n off,
      lookup_symbol st.symbol_map n = some off →
      lookup_symbol st'.symbol_map n = some off) :=
  ⟨codegen_var_found, codegen_var_fresh,
   fun e st op st' h => (codegen_preserves e st op st' h).2.1,
   fun stmts st st' h => (generate_preserves stmts st st' h).2.1⟩

/-- Witness for C2 at a concrete state: looking up `a` bound at offset 32
returns 32 without changing the generator. -/
theorem c2_witness :
    (CodeGenerator.mk 32 36 [("a", 32)] []).codegen (.VariableExprAST "a") =
      .ok (.MEM 32, CodeGenerator.mk 32 36 [("a", 32)] []) :=
  c2_symbol_table_stability.1 (CodeGenerator.mk 32 36 [("a", 32)] []) "a" 32 (by rfl)

/-- C3: counterexample to gap-freeness: compiling `a := 1 + 2; b := 3`
assigns `a` offset 32 and `b` offset 40 (the synthetic slot for `1 + 2`
occupies 36), so the second distinct variable does not get base + 4. -/
theorem c3_counterexample :
    (CodeGenerator.new.generate
      [ .AssignmentAST (.VariableExprAST "a")
          (.BinaryExprAST .Add (.IntLiteralExprAST 1) (.IntLiteralExprAST 2)),
        .AssignmentAST (.VariableExprAST "b") (.IntLiteralExprAST 3)]).map
        CodeGenerator.symbol_map = .ok [("a", 32), ("b", 40)] ∧
    (40 : Nat) ≠ 32 + 4 * 1 :=
  ⟨by rfl, by decide⟩

/-- C3 (amended): over any completed generation from a fresh generator,
variable offsets in order of first reference are strictly increasing
multiples of 4, at least the base 32 and below the final frame pointer
(hence never assigned to two names); they need not be consecutive, since
synthetic binary-result slots also advance the frame pointer. -/
theorem c3_offsets_increasing :
    ∀ (stmts : List ExprAST) (st' : CodeGenerator),
      CodeGenerator.new.generate stmts = .ok st' →
      List.Pairwise (fun p q : String × Nat => p.2 < q.2) st'.symbol_map ∧
      (∀ p ∈ st'.symbol_map, 32 ≤ p.2 ∧ p.2 % 4 = 0 ∧ p.2 < st'.frame_pointer) := by
  intro stmts st' h
  have inv := (generate_preserves stmts CodeGenerator.new st' h).2.2 genInv_new
  exact ⟨inv.2.2.1, inv.2.2.2.1⟩

/-- Witness for C3 on the one-statement program `a := 1`. -/
theorem c3_witness :
    List.Pairwise (fun p q : String × Nat => p.2 < q.2)
      (CodeGenerator.mk 32 36 [("a", 32)] [.li .t0 1, .sw .t0 32]).symbol_map ∧
    (∀ p ∈ (CodeGenerator.mk 32 36 [("a", 32)]
        [.li .t0 1, .sw .t0 32]).symbol_map,
      32 ≤ p.2 ∧ p.2 % 4 = 0 ∧
        p.2 < (CodeGenerator.mk 32 36 [("a", 32)]
          [.li .t0 1, .sw .t0 32]).frame_pointer) :=
  c3_offsets_increasing
    [.AssignmentAST (.VariableExprAST "a") (.IntLiteralExprAST 1)]
    (CodeGenerator.mk 32 36 [("a", 32)] [.li .t0 1, .sw .t0 32]) (by rfl)

/-- C4: parsing the token stream of `a + b + c` with `parse_expression`
yields the left-associative tree `(a + b) + c`. -/
theorem c4_left_associative :
    parsed_expr ((parseFns 60).expr (expr_state (tokens_of "a + b + c"))) =
      some (.BinaryExprAST .Add
        (.BinaryExprAST .Add (.VariableExprAST "a") (.VariableExprAST "b"))
        (.VariableExprAST "c")) := by rfl

/-- C5: compiling `begin a := 1 + 2; end` emits exactly load-immediate 1
into `$t0`, load-immediate 2 into `$t1`, an add, a store to the synthetic
offset 36, a load of offset 36, and a store to variable `a`'s offset 32 —
with no `jal` to the read or write stubs. -/
theorem c5_assign_compilation :
    compile "begin a := 1 + 2; end" =
      some (.ok (CodeGenerator.mk 32 40 [("a", 32)]
        [.li .t0 1, .li .t1 2, .add, .sw .t0 36, .lw .t0 36, .sw .t0 32])) ∧
    jal_count [.li .t0 1, .li .t1 2, .add, .sw .t0 36, .lw .t0 36, .sw .t0 32] = 0 :=
  ⟨by rfl, by rfl⟩

/-- C6: the code's `is_whitespace` diverges from the Pattern_White_Space
set its own comment (and the spec) promise: it accepts U+1680 and U+00A0,
which are not Pattern_White_Space, and rejects U+200E, which is. -/
theorem c6_whitespace_divergence :
    is_whitespace (Char.ofNat 0x1680) = true ∧
    pattern_white_space_spec (Char.ofNat 0x1680) = false ∧
    is_whitespace (Char.ofNat 0xA0) = true ∧
    pattern_white_space_spec (Char.ofNat 0xA0) = false ∧
    is_whitespace (Char.ofNat 0x200E) = false ∧
    pattern_white_space_spec (Char.ofNat 0x200E) = true := by
  decide

/-- C7: counterexample: a `begin` after the first matching `end` re-enables
statement collection, so `parse` returns a node for `a := 1` even though it
appears after the first region's `end`. -/
theorem c7_counterexample :
    parse_source "begin end begin a := 1; end" =
      some (.ok [.AssignmentAST (.VariableExprAST "a") (.IntLiteralExprAST 1)]) := by
  rfl

/-- C7 (amended): while collection is disabled, any run of tokens free of
`Begin` (and of in-stream `ScanEof`, which the lexer never emits) is
skipped without producing AST nodes, consuming one loop iteration (one
fuel) per token: this covers both the tokens before the first `begin` and
the tokens after an `end`; nodes can only reappear after a later `begin`.
In particular a token stream with no `begin` at all parses to the empty
statement list. -/
theorem c7_outside_region_skipped :
    (∀ (j : List Token) (f : Nat) (c1 c2 : Token) (ts : List Token),
      (∀ t ∈ j, t.token_type ≠ .Begin ∧ t.token_type ≠ .ScanEof) →
      (parseFns (f + j.length)).top false { current := c1, rest := j ++ ts } =
        (parseFns f).top false { current := c2, rest := ts }) ∧
    (∀ ts : List Token,
      (∀ t ∈ ts, t.token_type ≠ .Begin ∧ t.token_type ≠ .ScanEof) →
      parse ts = some (.ok [])) := by
  refine ⟨parse_top_skips_junk, ?_⟩
  intro ts hts
  show (parseFns (parser_fuel ts)).top false
      { current := Token.unknown, rest := ts } = some (.ok [])
  have h1 : parser_fuel ts = (7 * ts.length + 12) + ts.length := by
    simp only [parser_fuel]
    omega
  rw [h1]
  have h2 := parse_top_skips_junk ts (7 * ts.length + 12) Token.unknown
    Token.unknown [] hts
  rw [List.append_nil] at h2
  rw [h2]
  exact parse_top_nil (7 * ts.length + 11) Token.unknown false

/-- Witness for C7: the begin-free stream `x ; y` parses to no nodes. -/
theorem c7_witness : parse (tokens_of "x ; y") = some (.ok []) :=
  c7_outside_region_skipped.2 (tokens_of "x ; y") (by decide)

/-- C8: counterexample: the malformed assignment `a := ;` (missing
expression after `:=`) is not a fatal parse error: `parse_primary`'s
failure is silently defaulted to the literal 0 and an AST is produced. -/
theorem c8_counterexample :
    parse_source "begin a := ; end" =
      some (.ok [.AssignmentAST (.VariableExprAST "a") (.IntLiteralExprAST 0)]) := by
  rfl

/-- C8 (amended): a missing comma in an argument list and an unclosed
parenthesis are fatal parse errors carrying the unexpected token's type
(but not its position), with no recovery; a missing expression after `:=`
is not an error at all — the right-hand side silently becomes the integer
literal 0. -/
theorem c8_parse_errors :
    parse_source "begin read(a b); end" =
      some (.error (.unexpectedToken (.Identifier "b"))) ∧
    parse_source "begin (1 ; end" =
      some (.error (.unexpectedToken .Semicolon)) ∧
    parse_source "begin a := ; end" =
      some (.ok [.AssignmentAST (.VariableExprAST "a") (.IntLiteralExprAST 0)]) :=
  ⟨by rfl, by rfl, by rfl⟩

/-- C9: the lexer is deterministic at end of input (always `ScanEof`, with
no state change), the tokenize loop never exhausts fuel one beyond the
input length, and the parser's top-level loop never exhausts the fuel
`parse` supplies — so tokenization and parsing of any finite input
terminate, normally or by a fatal error. -/
theorem c9_termination :
    (∀ st : Lexer, st.chars = [] →
      st.next_token = .ok
        ({ token_type := .ScanEof, length := 0, line := st.line,
           column := st.column, offset := st.offset }, st)) ∧
    (∀ (fuel : Nat) (st : Lexer), st.chars.length < fuel →
      tokenize_fuel fuel st ≠ none) ∧
    (∀ src : List Char, tokenize src ≠ none) ∧
    (∀ ts : List Token, parse ts ≠ none) :=
  ⟨next_token_at_eof, tokenize_fuel_sufficient,
   fun src => tokenize_fuel_sufficient (src.length + 1) (Lexer.new src)
     (by simp [Lexer.new]),
   parse_never_out_of_fuel⟩

/-- Witness for C9 at the empty input and the empty token stream. -/
theorem c9_witness :
    (Lexer.new []).next_token =
      .ok ({ token_type := .ScanEof, length := 0, line := 1, column := 1,
             offset := 0 }, Lexer.new []) ∧
    tokenize_fuel 1 (Lexer.new []) ≠ none ∧
    tokenize [] ≠ none ∧
    parse [] ≠ none :=
  ⟨c9_termination.1 (Lexer.new []) (by rfl),
   c9_termination.2.1 1 (Lexer.new []) (by decide),
   c9_termination.2.2.1 [],
   c9_termination.2.2.2 []⟩

/-- C10: every frame-pointer-relative offset in a load or store emitted
into the body by a completed generation from a fresh generator is strictly
below the final frame-pointer value that sizes the prologue and
epilogue. -/
theorem c10_offsets_within_frame :
    ∀ (stmts : List ExprAST) (st' : CodeGenerator),
      CodeGenerator.new.generate stmts = .ok st' →
      ∀ off ∈ mem_offsets st'.asm, off < st'.frame_pointer := by
  intro stmts st' h
  exact ((generate_preserves stmts CodeGenerator.new st' h).2.2 genInv_new).2.2.2.2

/-- Witness for C10 on the program `a := 1 + 2` whose body stores to the
synthetic offset 36 inside the frame sized by frame pointer 40. -/
theorem c10_witness : (36 : Nat) < 40 :=
  c10_offsets_within_frame
    [.AssignmentAST (.VariableExprAST "a")
      (.BinaryExprAST .Add (.IntLiteralExprAST 1) (.IntLiteralExprAST 2))]
    (CodeGenerator.mk 32 40 [("a", 32)]
      [.li .t0 1, .li .t1 2, .add, .sw .t0 36, .lw .t0 36, .sw .t0 32])
    (by rfl) 36 (by decide)
